import Mathlib

/-!
Shallow embedding of the mcpsaver diff engine (`src/diff/DiffManager.ts`) and
relevance cache (`src/cache/CacheManager.ts`), together with theorems settling
the frozen claims about them.

JavaScript strings are modelled as `List Char`; JavaScript `number` values are
modelled as `Nat` / `Int` for counts and line numbers and as `ℚ` for the
fractional scores and rates (the program only ever combines them with exact
arithmetic in the ranges the claims exercise).
-/

namespace Mcpsaver

/-- JavaScript strings, modelled as lists of characters. -/
abbrev JStr := List Char

/-- Convert a Lean string literal into the `JStr` model. -/
def js (s : String) : JStr := s.toList

/-- `s.split('\n')` in JavaScript: splitting the empty string yields `[""]`,
a trailing separator yields a trailing empty piece. -/
def splitNl : JStr → List JStr
  | [] => [[]]
  | c :: rest =>
    let r := splitNl rest
    if c = '\n' then [] :: r
    else
      match r with
      | h :: t => (c :: h) :: t
      | [] => [[c]]

/-- `parts.join('\n')` in JavaScript. -/
def joinNl : List JStr → JStr
  | [] => []
  | [l] => l
  | l :: ls => l ++ '\n' :: joinNl ls

/-! ## Diff engine (`src/diff/DiffManager.ts`) -/

/-- The `type` field of a `DiffChange` (`src/types/index.ts`). -/
inductive ChangeType
  | added
  | removed
  | modified
deriving DecidableEq, Repr

/-- `DiffChange` from `src/types/index.ts`; the optional numeric fields are
1-based line numbers. -/
structure DiffChange where
  type : ChangeType
  oldStart : Option Int := none
  oldEnd : Option Int := none
  newStart : Option Int := none
  newEnd : Option Int := none
  content : JStr
deriving DecidableEq, Repr

/-- Type of an entry of the fine-grained op stream built by
`DiffManager.generateOpStream`. -/
inductive OpType
  | added
  | removed
  | unchanged
deriving DecidableEq, Repr

/-- An entry of the op stream: `{ type, content, oldIndex, newIndex }` with the
0-based indexes used by `DiffManager` (they can be `-1`, hence `Int`). -/
structure Op where
  type : OpType
  content : JStr
  oldIndex : Int
  newIndex : Int
deriving DecidableEq, Repr

/-- The dynamic-programming table built by
`DiffManager.longestCommonSubsequence`: `lcsdp a b i j` is the value `dp[i][j]`
of the table (LCS length of the first `i` lines of `a` and the first `j` lines
of `b`).  The table is total with `dp[0][j] = dp[i][0] = 0`, out-of-range
probes in the TypeScript read `?? 0` / `|| 0`.  The extra fuel argument of
`lcsdpGo` only makes the double recursion structural; with `fuel ≥ i + j` it
computes exactly the recurrence that fills the table. -/
def lcsdpGo (a b : List JStr) : Nat → Nat → Nat → Nat
  | 0, _, _ => 0
  | _, 0, _ => 0
  | _, _, 0 => 0
  | fuel + 1, i + 1, j + 1 =>
    if a.get? i = b.get? j then lcsdpGo a b fuel i j + 1
    else max (lcsdpGo a b fuel i (j + 1)) (lcsdpGo a b fuel (i + 1) j)

/-- `dp[i][j]` of `DiffManager.longestCommonSubsequence(a, b)`. -/
def lcsdp (a b : List JStr) (i j : Nat) : Nat := lcsdpGo a b (i + j) i j

/-- The backtracking loop of `DiffManager.generateOpStream`, which walks
`(i, j)` from `(m, n)` down to `(0, 0)` and `unshift`s one op per step (so the
returned list is in ascending position order).  The fuel argument makes the
recursion structural; with `fuel ≥ i + j` it performs exactly the loop. -/
def genOpsGo (oldLines newLines : List JStr) : Nat → Nat → Nat → List Op
  | 0, _, _ => []
  | fuel + 1, i, j =>
    if i = 0 ∧ j = 0 then []
    else if 0 < i ∧ 0 < j ∧ oldLines.get? (i - 1) = newLines.get? (j - 1) then
      genOpsGo oldLines newLines fuel (i - 1) (j - 1) ++
        [⟨.unchanged, oldLines.getD (i - 1) [], (i : Int) - 1, (j : Int) - 1⟩]
    else if 0 < j ∧ (i = 0 ∨ lcsdp oldLines newLines i (j - 1) ≥ lcsdp oldLines newLines (i - 1) j) then
      genOpsGo oldLines newLines fuel i (j - 1) ++
        [⟨.added, newLines.getD (j - 1) [], (i : Int) - 1, (j : Int) - 1⟩]
    else if 0 < i then
      genOpsGo oldLines newLines fuel (i - 1) j ++
        [⟨.removed, oldLines.getD (i - 1) [], (i : Int) - 1, (j : Int) - 1⟩]
    else []

/-- `DiffManager.generateOpStream(oldLines, newLines, lcs)`. -/
def generateOpStream (oldLines newLines : List JStr) : List Op :=
  genOpsGo oldLines newLines (oldLines.length + newLines.length)
    oldLines.length newLines.length

/-- The merging loop of `DiffManager.computeDiff`: collect a maximal run of
`removed` ops; if it is immediately followed by a run of `added` ops the two
become one `modified` change, otherwise a pure removal; a run of `added` ops
becomes an `added` change; `unchanged` ops are skipped.  Fuel is the length of
the op list (each step consumes at least one op). -/
def opsToChanges : Nat → List Op → List DiffChange
  | 0, _ => []
  | _ + 1, [] => []
  | fuel + 1, op :: rest =>
    match op.type with
    | .unchanged => opsToChanges fuel rest
    | .added =>
      let addRun := op :: rest.takeWhile (fun o => o.type == OpType.added)
      let rest1 := rest.dropWhile (fun o => o.type == OpType.added)
      { type := .added,
        newStart := some (op.newIndex + 1),
        newEnd := some ((addRun.getLast?.getD op).newIndex + 1),
        content := joinNl (addRun.map (fun o => o.content)) } ::
        opsToChanges fuel rest1
    | .removed =>
      let remRun := op :: rest.takeWhile (fun o => o.type == OpType.removed)
      let rest1 := rest.dropWhile (fun o => o.type == OpType.removed)
      let remStartOld := op.oldIndex + 1
      let remEndOld := (remRun.getLast?.getD op).oldIndex + 1
      match rest1.head? with
      | some a =>
        if a.type == OpType.added then
          let addRun := rest1.takeWhile (fun o => o.type == OpType.added)
          let rest2 := rest1.dropWhile (fun o => o.type == OpType.added)
          { type := .modified,
            oldStart := some remStartOld, oldEnd := some remEndOld,
            newStart := some (a.newIndex + 1),
            newEnd := some ((addRun.getLast?.getD a).newIndex + 1),
            content := joinNl (addRun.map (fun o => o.content)) } ::
            opsToChanges fuel rest2
        else
          { type := .removed, oldStart := some remStartOld, oldEnd := some remEndOld,
            content := joinNl (remRun.map (fun o => o.content)) } ::
            opsToChanges fuel rest1
      | none =>
        { type := .removed, oldStart := some remStartOld, oldEnd := some remEndOld,
          content := joinNl (remRun.map (fun o => o.content)) } ::
          opsToChanges fuel rest1

/-- `DiffManager.computeDiff(oldContent, newContent, _filePath)` (the file-path
argument is unused by the TypeScript). -/
def computeDiff (oldContent newContent : JStr) : List DiffChange :=
  let oldLines := splitNl oldContent
  let newLines := splitNl newContent
  let ops := generateOpStream oldLines newLines
  opsToChanges ops.length ops

/-- `Number.MAX_SAFE_INTEGER`. -/
def jsMaxSafeInteger : Int := 2 ^ 53 - 1

/-- Sort key used by `DiffManager.applyDiff`: `ch.oldStart ?? MAX_SAFE_INTEGER`. -/
def applySortKey (ch : DiffChange) : Int := ch.oldStart.getD jsMaxSafeInteger

/-- Insert into an already sorted list, after existing elements with an equal
key (so that the overall sort is stable, like `Array.prototype.sort`). -/
def insertByApplyKey (x : DiffChange) : List DiffChange → List DiffChange
  | [] => [x]
  | y :: ys =>
    if applySortKey y ≤ applySortKey x then y :: insertByApplyKey x ys
    else x :: y :: ys

/-- The stable ascending sort by `oldStart ?? MAX_SAFE_INTEGER` performed at
the start of `DiffManager.applyDiff`. -/
def sortByOldStart (changes : List DiffChange) : List DiffChange :=
  changes.foldl (fun acc x => insertByApplyKey x acc) []

/-- `lines.slice(a, b)` for the non-negative arguments `applyDiff` produces
(its cursor and `copyUntil` are always ≥ 0). -/
def jsSlice (l : List JStr) (a b : Int) : List JStr :=
  (l.take b.toNat).drop a.toNat

/-- One iteration of the `for (const ch of sorted)` loop body of
`DiffManager.applyDiff`, acting on the pair (result lines, cursor).  Note that
`if (ch.content)` is false for the empty string, hence the emptiness tests. -/
def applyDiffStep (lines : List JStr) (acc : List JStr × Int) (ch : DiffChange) :
    List JStr × Int :=
  let result := acc.1
  let cursor := acc.2
  let oldStart := ch.oldStart.getD cursor
  let oldEnd := ch.oldEnd.getD (ch.oldStart.getD (cursor - 1))
  let copyUntil := max 1 (oldStart - 1)
  let result := if cursor ≤ copyUntil then result ++ jsSlice lines (cursor - 1) copyUntil else result
  let cursor := if cursor ≤ copyUntil then copyUntil + 1 else cursor
  match ch.type with
  | .removed => (result, max cursor (oldEnd + 1))
  | .modified =>
    ((if ch.content = [] then result else result ++ splitNl ch.content),
      max cursor (oldEnd + 1))
  | .added =>
    ((if ch.content = [] then result else result ++ splitNl ch.content), cursor)

/-- `DiffManager.applyDiff(originalContent, changes)`. -/
def applyDiff (originalContent : JStr) (changes : List DiffChange) : JStr :=
  let sorted := sortByOldStart changes
  let lines := splitNl originalContent
  let acc := sorted.foldl (applyDiffStep lines) ([], 1)
  let result :=
    if acc.2 ≤ (lines.length : Int) then acc.1 ++ jsSlice lines (acc.2 - 1) (lines.length : Int)
    else acc.1
  joinNl result

/-! ## Symbol diff (`DiffManager.generateSymbolDiff`) -/

/-- `SymbolChange` from `src/types/index.ts`. -/
structure SymbolChange where
  type : ChangeType
  symbol : JStr
  code : JStr
  lineNumber : Nat
  oldCode : Option JStr := none
deriving DecidableEq, Repr

/-- A JavaScript `Map<string, string>` modelled as an association list in
insertion order (keys unique in any map actually built by the program, though
nothing below needs that). -/
abbrev SymMap := List (JStr × JStr)

/-- `map.get(key)` on the model: first binding wins. -/
def symGet (m : SymMap) (k : JStr) : Option JStr :=
  (m.find? (fun e => e.1 == k)).map (fun e => e.2)

/-- JavaScript truthiness of a `string | undefined`: `undefined` and the empty
string are falsy. -/
def strTruthy : Option JStr → Bool
  | none => false
  | some s => !s.isEmpty

/-- `new Set([...snapshot.keys(), ...currentSymbols.keys()])` iterated in
insertion order: deduplicate keeping the first occurrence. -/
def dedupKeepFirst (seen : List JStr) : List JStr → List JStr
  | [] => []
  | x :: xs =>
    if x ∈ seen then dedupKeepFirst seen xs
    else x :: dedupKeepFirst (x :: seen) xs

/-- The body of the `for (const symbolName of allSymbols)` loop of
`DiffManager.generateSymbolDiff`: the change record pushed for one symbol
name, if any.  The guards are the JavaScript truthiness tests
`!oldContent && newContent`, `oldContent && !newContent` and
`oldContent && newContent && oldContent !== newContent`. -/
def symbolChangeFor (snapshot currentSymbols : SymMap) (symbolName : JStr) :
    Option SymbolChange :=
  let oldContent := symGet snapshot symbolName
  let newContent := symGet currentSymbols symbolName
  if !strTruthy oldContent && strTruthy newContent then
    some { type := .added, symbol := symbolName, code := newContent.getD [],
           lineNumber := 0 }
  else if strTruthy oldContent && !strTruthy newContent then
    some { type := .removed, symbol := symbolName, code := [],
           lineNumber := 0, oldCode := oldContent }
  else if strTruthy oldContent && strTruthy newContent && oldContent != newContent then
    some { type := .modified, symbol := symbolName, code := newContent.getD [],
           lineNumber := 0, oldCode := oldContent }
  else none

/-- `DiffManager.generateSymbolDiff(filePath, currentSymbols)` after the
snapshot lookup: the list of changes pushed while looping over the union of
the two key sets. -/
def generateSymbolDiff (snapshot currentSymbols : SymMap) : List SymbolChange :=
  let allSymbols :=
    dedupKeepFirst [] (snapshot.map (fun e => e.1) ++ currentSymbols.map (fun e => e.1))
  allSymbols.filterMap (symbolChangeFor snapshot currentSymbols)

/-! ## Cache manager (`src/cache/CacheManager.ts`)

State is passed explicitly.  `Math.log` (used only inside the ranking score)
is transcendental, so every state-transforming operation is parametrised by
the function `mlog` modelling it; no claim depends on its values.  `Date.now()`
is modelled by a fixed logical clock `now` carried in the state. -/

/-- Kernel-computable cast `Nat → ℚ` (`Rat.divInt` reduces definitionally,
unlike the arithmetic of Mathlib's `ℚ` instances; provably the ordinary cast,
see `qOfNat_eq`).  These `q…` operations are used in the state transitions
that concrete runs must evaluate. -/
def qOfNat (n : Nat) : ℚ := Rat.divInt (Int.ofNat n) 1

/-- Kernel-computable addition on `ℚ`; provably `a + b` (`qAdd_eq`). -/
def qAdd (a b : ℚ) : ℚ := Rat.divInt (a.num * b.den + b.num * a.den) (a.den * b.den)

/-- Kernel-computable multiplication on `ℚ`; provably `a * b` (`qMul_eq`). -/
def qMul (a b : ℚ) : ℚ := Rat.divInt (a.num * b.num) (a.den * b.den)

/-- Kernel-computable subtraction on `ℚ`; provably `a - b` (`qSub_eq`). -/
def qSub (a b : ℚ) : ℚ := Rat.divInt (a.num * b.den - b.num * a.den) (a.den * b.den)

/-- Kernel-computable division on `ℚ`; provably `a / b` (`qDiv_eq`), with the
same `a / 0 = 0` convention. -/
def qDiv (a b : ℚ) : ℚ := Rat.divInt (a.num * b.den) (a.den * b.num)

/-- `CodeContext` from `src/types/index.ts`. -/
structure CodeContext where
  filePath : JStr
  extractedCode : JStr
  imports : List JStr
  symbols : List JStr
  dependencies : List JStr
  tokenCount : Nat
  timestamp : Nat
  relevanceScore : ℚ
deriving DecidableEq, Repr

/-- `CacheStats` from `src/types/index.ts`. -/
structure CacheStats where
  totalEntries : Nat
  totalSize : Nat
  hitRate : ℚ
  missRate : ℚ
  evictionCount : Nat
deriving DecidableEq, Repr

/-- The fields of `OptimizationConfig` that `CacheManager` reads. -/
structure OptimizationConfig where
  maxCacheSize : Nat
  maxTokensPerEntry : Nat
  cacheExpirationMs : Nat
  tokenEstimationRatio : Nat
  relevanceThreshold : ℚ
deriving DecidableEq, Repr

/-- The defaults merged in the `CacheManager` constructor. -/
def defaultConfig : OptimizationConfig :=
  { maxCacheSize := 100 * 1024 * 1024
    maxTokensPerEntry := 10000
    cacheExpirationMs := 24 * 60 * 60 * 1000
    tokenEstimationRatio := 4
    relevanceThreshold := mkRat 1 2 }  -- 0.5

/-- One JSON-escaped character, as `JSON.stringify` emits it. -/
def jsonEscapeChar (c : Char) : JStr :=
  if c = '"' then ['\\', '"']
  else if c = '\\' then ['\\', '\\']
  else if c = '\n' then ['\\', 'n']
  else if c = '\r' then ['\\', 'r']
  else if c = '\t' then ['\\', 't']
  else if c = '\x08' then ['\\', 'b']
  else if c = '\x0c' then ['\\', 'f']
  else if c.toNat < 32 then
    let hexDigit := fun (n : Nat) =>
      if n < 10 then Char.ofNat ('0'.toNat + n) else Char.ofNat ('a'.toNat + n - 10)
    ['\\', 'u', '0', '0', hexDigit (c.toNat / 16), hexDigit (c.toNat % 16)]
  else [c]

/-- `JSON.stringify` of a string value. -/
def jsonString (s : JStr) : JStr :=
  '"' :: (s.flatMap jsonEscapeChar) ++ ['"']

/-- Join with a single separator character (`parts.join(",")` etc.). -/
def joinSep (sep : Char) : List JStr → JStr
  | [] => []
  | [l] => l
  | l :: ls => l ++ sep :: joinSep sep ls

/-- `JSON.stringify` of an array of strings. -/
def jsonArray (l : List JStr) : JStr :=
  '[' :: joinSep ',' (l.map jsonString) ++ [']']

/-- `JSON.stringify({ symbols: context.symbols, dependencies: context.dependencies })`
as built inside `CacheManager.calculateEntrySize`. -/
def jsonStringifyMeta (context : CodeContext) : JStr :=
  js "\x7b\"symbols\":" ++ jsonArray context.symbols ++
    js ",\"dependencies\":" ++ jsonArray context.dependencies ++ js "\x7d"

/-- `CacheManager.calculateEntrySize(context)`. -/
def calculateEntrySize (context : CodeContext) : Nat :=
  context.extractedCode.length + (context.imports.flatten).length +
    (jsonStringifyMeta context).length

/-- `Math.ceil(n / d)` for natural `n` and positive natural `d` (the token
estimation ratio; the program only ever divides by it). -/
def jsCeilDiv (n d : Nat) : Nat := (n + d - 1) / d

/-- The greedy line-keeping loop of `CacheManager.truncateContext`: keep whole
lines while `currentLength + line.length` stays within `maxChars`, counting
`line.length + 1` per kept line; returns the kept lines and the final
`currentLength`. -/
def takeBudget (maxChars : Nat) : List JStr → Nat → List JStr × Nat
  | [], currentLength => ([], currentLength)
  | l :: ls, currentLength =>
    if currentLength + l.length > maxChars then ([], currentLength)
    else
      let r := takeBudget maxChars ls (currentLength + l.length + 1)
      (l :: r.1, r.2)

/-- `CacheManager.truncateContext(context)`. -/
def truncateContext (config : OptimizationConfig) (context : CodeContext) :
    CodeContext :=
  let maxChars := config.maxTokensPerEntry * config.tokenEstimationRatio
  if context.extractedCode.length ≤ maxChars then context
  else
    let lines := splitNl context.extractedCode
    let r := takeBudget maxChars lines 0
    { context with
      extractedCode := joinNl r.1
      tokenCount := jsCeilDiv r.2 config.tokenEstimationRatio }

/-- A `Map<string, number>` (access counts / last-access times). -/
abbrev NatMap := List (JStr × Nat)

/-- `map.get(key)`. -/
def natMapGet (m : NatMap) (k : JStr) : Option Nat :=
  (m.find? (fun e => e.1 == k)).map (fun e => e.2)

/-- `map.set(key, v)`: overwrite in place, else append (JS insertion order). -/
def natMapSet (m : NatMap) (k : JStr) (v : Nat) : NatMap :=
  match m with
  | [] => [(k, v)]
  | e :: es => if e.1 == k then (k, v) :: es else e :: natMapSet es k v

/-- `map.delete(key)`. -/
def natMapDelete (m : NatMap) (k : JStr) : NatMap :=
  m.eraseP (fun e => e.1 == k)

/-- The entry store of the underlying `lru-cache`, most recently used first. -/
abbrev EntryList := List (JStr × CodeContext)

/-- Sum of `sizeCalculation` over the stored entries: the `calculatedSize`
tracked by `lru-cache`. -/
def entriesSize (entries : EntryList) : Nat :=
  (entries.map (fun e => calculateEntrySize e.2)).sum

/-- The entry-count bound `max: 1000` passed to the `LRUCache` constructor. -/
def lruMaxEntries : Nat := 1000

/-- The eviction loop of `lru-cache`: while more than `max` entries or more
than `maxSize` calculated bytes, evict the least recently used entry (the last
one).  Returns the surviving entries and the number of evictions (each calls
`dispose`).  Fuel (the list length) makes the loop structural. -/
def lruEvictGo (maxSize : Nat) : Nat → EntryList → EntryList × Nat
  | 0, entries => (entries, 0)
  | fuel + 1, entries =>
    if entries.length ≤ lruMaxEntries ∧ entriesSize entries ≤ maxSize then (entries, 0)
    else
      let r := lruEvictGo maxSize fuel entries.dropLast
      (r.1, r.2 + 1)

/-- `lru-cache` `cache.set(key, ctx)` with `maxSize` and the implied
`maxEntrySize = maxSize`: an entry larger than `maxEntrySize` is not stored
(any existing entry under the key is deleted); otherwise the entry is stored
most-recently-used and the cache evicts from the LRU end until within bounds.
Returns the new store and the number of `dispose` calls (old value replaced or
deleted, plus evictions). -/
def lruSet (maxSize : Nat) (key : JStr) (context : CodeContext)
    (entries : EntryList) : EntryList × Nat :=
  let existed := (entries.find? (fun e => e.1 == key)).isSome
  let removed := entries.eraseP (fun e => e.1 == key)
  let disposeOld := if existed then 1 else 0
  if calculateEntrySize context > maxSize then (removed, disposeOld)
  else
    let inserted := (key, context) :: removed
    let r := lruEvictGo maxSize inserted.length inserted
    (r.1, disposeOld + r.2)

/-- `lru-cache` `cache.get(key)`: on a hit the entry becomes most recently
used.  (The constructor's `ttl` never expires anything here because the
logical clock does not advance within a run.) -/
def lruGet (key : JStr) (entries : EntryList) : Option CodeContext × EntryList :=
  match entries.find? (fun e => e.1 == key) with
  | some e => (some e.2, e :: entries.eraseP (fun x => x.1 == key))
  | none => (none, entries)

/-- The mutable state of a `CacheManager` instance (the `lru-cache` contents,
the stats record, the two bookkeeping maps), plus the logical `Date.now()`
clock. -/
structure CMState where
  entries : EntryList
  stats : CacheStats
  accessCounts : NatMap
  lastAccessed : NatMap
  now : Nat
deriving DecidableEq, Repr

/-- The state built by the `CacheManager` constructor. -/
def initialState : CMState :=
  { entries := []
    stats := { totalEntries := 0, totalSize := 0, hitRate := 0, missRate := 0,
               evictionCount := 0 }
    accessCounts := []
    lastAccessed := []
    now := 0 }

/-- `CacheManager.recordHit`: note that `totalRequests` is
`this.stats.hitRate + this.stats.missRate`, the sum of the two running rates. -/
def recordHit (s : CMState) : CMState :=
  let totalRequests := qAdd s.stats.hitRate s.stats.missRate
  { s with stats := { s.stats with
      hitRate := qDiv (qAdd (qMul s.stats.hitRate totalRequests) 1) (qAdd totalRequests 1) } }

/-- `CacheManager.recordMiss`. -/
def recordMiss (s : CMState) : CMState :=
  let totalRequests := qAdd s.stats.hitRate s.stats.missRate
  { s with stats := { s.stats with
      missRate := qDiv (qAdd (qMul s.stats.missRate totalRequests) 1) (qAdd totalRequests 1) } }

/-- `CacheManager.updateAccessStats(key)`. -/
def updateAccessStats (key : JStr) (s : CMState) : CMState :=
  let currentCount := (natMapGet s.accessCounts key).getD 0
  { s with
    accessCounts := natMapSet s.accessCounts key (currentCount + 1)
    lastAccessed := natMapSet s.lastAccessed key s.now }

/-- `CacheManager.updateStats`. -/
def updateStats (s : CMState) : CMState :=
  { s with stats := { s.stats with
      totalEntries := s.entries.length
      totalSize := entriesSize s.entries } }

/-- `CacheManager.getRecencyWeight(timestamp)` (ages are measured against the
logical clock; a timestamp in the future gives a weight above 1, as in JS). -/
def getRecencyWeight (config : OptimizationConfig) (now : Nat) (timestamp : Nat) : ℚ :=
  let ageMs : ℚ := (now : ℚ) - (timestamp : ℚ)
  max 0 (1 - ageMs / (config.cacheExpirationMs : ℚ))

/-- An element of the list built by `CacheManager.getEntriesByRelevance`. -/
structure RankedEntry where
  key : JStr
  context : CodeContext
  score : ℚ
deriving DecidableEq, Repr

/-- Stable insertion into a descending-by-score list (after equal scores),
modelling the stable `entries.sort((a, b) => b.score - a.score)`. -/
def insertByScoreDesc (x : RankedEntry) : List RankedEntry → List RankedEntry
  | [] => [x]
  | y :: ys =>
    if x.score ≤ y.score then y :: insertByScoreDesc x ys
    else x :: y :: ys

/-- `CacheManager.getEntriesByRelevance()`: score each stored entry by
relevance, recency of last access and (logarithmically scaled) access count,
then sort descending by score. -/
def getEntriesByRelevance (config : OptimizationConfig) (mlog : ℚ → ℚ)
    (s : CMState) : List RankedEntry :=
  let scored := s.entries.map (fun e =>
    let accessCount := (natMapGet s.accessCounts e.1).getD 0
    let lastAccess := (natMapGet s.lastAccessed e.1).getD 0
    let recencyWeight := getRecencyWeight config s.now lastAccess
    let accessWeight := mlog ((accessCount : ℚ) + 1) / 10
    { key := e.1, context := e.2,
      score := e.2.relevanceScore * (4 / 10) + recencyWeight * (3 / 10) +
        accessWeight * (3 / 10) : RankedEntry })
  scored.foldl (fun acc x => insertByScoreDesc x acc) []

/-- Deleting one entry inside `CacheManager.freeSpace`: `cache.delete`
(whose `dispose` callback `onEviction` bumps `evictionCount` when the key was
present) and removal from both bookkeeping maps. -/
def deleteEntry (key : JStr) (s : CMState) : CMState :=
  let existed := (s.entries.find? (fun e => e.1 == key)).isSome
  { s with
    entries := s.entries.eraseP (fun e => e.1 == key)
    stats := { s.stats with
      evictionCount := s.stats.evictionCount + (if existed then 1 else 0) }
    accessCounts := natMapDelete s.accessCounts key
    lastAccessed := natMapDelete s.lastAccessed key }

/-- The `for` loop of `CacheManager.freeSpace`, walking the ranked entries
from the lowest score upward while `freedSpace < targetSize`; each step
deletes the entry, adds its size to `freedSpace` and bumps `evictionCount`. -/
def freeSpaceGo (target : ℚ) : List RankedEntry → ℚ → CMState → CMState
  | [], _, s => s
  | e :: rest, freedSpace, s =>
    if freedSpace < target then
      let entrySize := calculateEntrySize e.context
      let s := deleteEntry e.key s
      let s := { s with stats := { s.stats with
        evictionCount := s.stats.evictionCount + 1 } }
      freeSpaceGo target rest (freedSpace + (entrySize : ℚ)) s
    else s

/-- `CacheManager.freeSpace(targetSize)`. -/
def freeSpace (config : OptimizationConfig) (mlog : ℚ → ℚ) (target : ℚ)
    (s : CMState) : CMState :=
  freeSpaceGo target (getEntriesByRelevance config mlog s).reverse 0 s

/-- `CacheManager.ensureCapacity(requiredSize)`: if the required size does not
fit in `maxCacheSize - totalSize`, free that shortfall plus a 10% buffer. -/
def ensureCapacity (config : OptimizationConfig) (mlog : ℚ → ℚ)
    (requiredSize : Nat) (s : CMState) : CMState :=
  let availableSpace : ℚ := qSub (qOfNat config.maxCacheSize) (qOfNat s.stats.totalSize)
  if availableSpace < qOfNat requiredSize then
    let spaceToFree := qAdd (qSub (qOfNat requiredSize) availableSpace)
      (qMul (qOfNat config.maxCacheSize) (mkRat 1 10))  -- 0.1
    freeSpace config mlog spaceToFree s
  else s

/-- `CacheManager.get(key)`: returns the context (or `null`) and the new
state; a hit records the hit and refreshes the access stats, a miss records
the miss. -/
def cmGet (key : JStr) (s : CMState) : Option CodeContext × CMState :=
  match lruGet key s.entries with
  | (some context, entries) =>
    (some context, updateAccessStats key (recordHit { s with entries := entries }))
  | (none, _) => (none, recordMiss s)

/-- `CacheManager.set(key, context)`: truncate over-budget contexts, silently
drop low-relevance ones, ensure capacity, store, refresh access stats, update
stats. -/
def cmSet (config : OptimizationConfig) (mlog : ℚ → ℚ) (key : JStr)
    (context : CodeContext) (s : CMState) : CMState :=
  let context :=
    if context.tokenCount > config.maxTokensPerEntry then
      truncateContext config context
    else context
  if context.relevanceScore < config.relevanceThreshold then s
  else
    let s := ensureCapacity config mlog (calculateEntrySize context) s
    let r := lruSet config.maxCacheSize key context s.entries
    let s := { s with
      entries := r.1
      stats := { s.stats with evictionCount := s.stats.evictionCount + r.2 } }
    let s := updateAccessStats key s
    updateStats s

/-- Stable insertion into a `CodeContext` list sorted descending by
`relevanceScore × recencyWeight(timestamp)`, modelling the stable result sort
of `CacheManager.getByFilePath`. -/
def insertByRelevanceRecency (config : OptimizationConfig) (now : Nat)
    (x : CodeContext) : List CodeContext → List CodeContext
  | [] => [x]
  | y :: ys =>
    if x.relevanceScore * getRecencyWeight config now x.timestamp ≤
        y.relevanceScore * getRecencyWeight config now y.timestamp then
      y :: insertByRelevanceRecency config now x ys
    else x :: y :: ys

/-- `CacheManager.getByFilePath(filePath)`: walk the stored entries, collect
the contexts whose `filePath` matches (refreshing each one's access stats),
then sort the results by relevance and recency. -/
def getByFilePath (config : OptimizationConfig) (filePath : JStr) (s : CMState) :
    List CodeContext × CMState :=
  let r := s.entries.foldl
    (fun (acc : List CodeContext × CMState) e =>
      if e.2.filePath == filePath then (acc.1 ++ [e.2], updateAccessStats e.1 acc.2)
      else acc)
    ([], s)
  (r.1.foldl (fun acc x => insertByRelevanceRecency config s.now x acc) [], r.2)

/-! ## Cache key construction (`CodeReferenceOptimizer.generateCacheKey`) -/

/-- The code-unit comparison `a < b` performed by the default
`Array.prototype.sort` comparator on strings. -/
def jsStrLt : JStr → JStr → Bool
  | [], [] => false
  | [], _ :: _ => true
  | _ :: _, [] => false
  | a :: as, b :: bs =>
    if a < b then true
    else if b < a then false
    else jsStrLt as bs

/-- Stable insertion into an ascending list under `jsStrLt` (after equal
elements), modelling the stable default string sort. -/
def insertStr (x : JStr) : List JStr → List JStr
  | [] => [x]
  | y :: ys => if jsStrLt x y then x :: y :: ys else y :: insertStr x ys

/-- `targetSymbols.sort()` (default string comparator, stable). -/
def sortStrs (l : List JStr) : List JStr :=
  l.foldl (fun acc x => insertStr x acc) []

/-- `CodeReferenceOptimizer.generateCacheKey(filePath, targetSymbols,
includeImports)` (an `undefined` `includeImports` is falsy, i.e. `false`
here). -/
def generateCacheKey (filePath : JStr) (targetSymbols : Option (List JStr))
    (includeImports : Bool) : JStr :=
  let symbolsKey :=
    match targetSymbols with
    | some symbols => joinSep ',' (sortStrs symbols)
    | none => js "all"
  let importsKey := if includeImports then js "with-imports" else js "no-imports"
  filePath ++ ':' :: symbolsKey ++ ':' :: importsKey

/-! ## Concrete instances used by counterexamples and witnesses -/

/-- A model of `Math.log` for concrete runs; no claim depends on its values
(it only enters the eviction ranking score). -/
def zeroLog : ℚ → ℚ := fun _ => 0

/-- A small configuration (admission threshold 0, one-token entry budget). -/
def tinyConfig : OptimizationConfig :=
  { maxCacheSize := 1000
    maxTokensPerEntry := 1
    cacheExpirationMs := 1000
    tokenEstimationRatio := 4
    relevanceThreshold := 0 }

/-- A context whose `tokenCount` (5) exceeds `tinyConfig`'s one-token budget
and whose code does not fit `maxChars = 4` characters. -/
def overBudgetContext : CodeContext :=
  { filePath := js "f"
    extractedCode := js "aaaa\nb"
    imports := []
    symbols := []
    dependencies := []
    tokenCount := 5
    timestamp := 0
    relevanceScore := 1 }

/-- A small fully relevant context. -/
def sampleContext : CodeContext :=
  { filePath := js "f"
    extractedCode := js "code"
    imports := []
    symbols := []
    dependencies := []
    tokenCount := 1
    timestamp := 0
    relevanceScore := 1 }

/-- `sampleContext` with a relevance score below every positive threshold. -/
def lowRelevanceContext : CodeContext :=
  { sampleContext with relevanceScore := 0 }

/-- The state after the request trace miss(`"x"`), miss(`"x"`),
set(`"k"`), hit(`"k"`) against a default-configured cache. -/
def rateTraceState : CMState :=
  let s1 := (cmGet (js "x") initialState).2
  let s2 := (cmGet (js "x") s1).2
  let s3 := cmSet defaultConfig zeroLog (js "k") sampleContext s2
  (cmGet (js "k") s3).2

/-- The state after storing `sampleContext` under `"k"` in a fresh
default-configured cache. -/
def oneEntryState : CMState :=
  cmSet defaultConfig zeroLog (js "k") sampleContext initialState

/-- A two-entry state (file paths `"f"` and `"g"`) with some pre-existing
access bookkeeping, used to exercise `getByFilePath`. -/
def twoFileState : CMState :=
  { entries := [(js "k1", sampleContext),
                (js "k2", { sampleContext with filePath := js "g" })]
    stats := { totalEntries := 2, totalSize := 0, hitRate := 0, missRate := 0,
               evictionCount := 0 }
    accessCounts := [(js "k1", 3)]
    lastAccessed := [(js "k1", 5)]
    now := 7 }

/-! ## Helper lemmas -/

theorem rat_mul_den (a : ℚ) : a * (a.den : ℚ) = (a.num : ℚ) := by
  have ha : ((a.den : ℚ)) ≠ 0 := by exact_mod_cast a.den_nz
  exact ((div_eq_iff ha).mp (Rat.num_div_den a)).symm

theorem qOfNat_eq (n : Nat) : qOfNat n = (n : ℚ) := by
  simp [qOfNat, Rat.divInt_eq_div]

theorem qAdd_eq (a b : ℚ) : qAdd a b = a + b := by
  have ha : ((a.den : ℚ)) ≠ 0 := by exact_mod_cast a.den_nz
  have hb : ((b.den : ℚ)) ≠ 0 := by exact_mod_cast b.den_nz
  rw [qAdd, Rat.divInt_eq_div]
  push_cast
  rw [div_eq_iff (mul_ne_zero ha hb)]
  rw [← rat_mul_den a, ← rat_mul_den b]
  ring

theorem qMul_eq (a b : ℚ) : qMul a b = a * b := by
  have ha : ((a.den : ℚ)) ≠ 0 := by exact_mod_cast a.den_nz
  have hb : ((b.den : ℚ)) ≠ 0 := by exact_mod_cast b.den_nz
  rw [qMul, Rat.divInt_eq_div]
  push_cast
  rw [div_eq_iff (mul_ne_zero ha hb)]
  rw [← rat_mul_den a, ← rat_mul_den b]
  ring

theorem qSub_eq (a b : ℚ) : qSub a b = a - b := by
  have ha : ((a.den : ℚ)) ≠ 0 := by exact_mod_cast a.den_nz
  have hb : ((b.den : ℚ)) ≠ 0 := by exact_mod_cast b.den_nz
  rw [qSub, Rat.divInt_eq_div]
  push_cast
  rw [div_eq_iff (mul_ne_zero ha hb)]
  rw [← rat_mul_den a, ← rat_mul_den b]
  ring

theorem qDiv_eq (a b : ℚ) : qDiv a b = a / b := by
  rcases eq_or_ne b 0 with rfl | hb0
  · simp [qDiv]
  · have ha : ((a.den : ℚ)) ≠ 0 := by exact_mod_cast a.den_nz
    have hbn : ((b.num : ℚ)) ≠ 0 := by exact_mod_cast Rat.num_ne_zero.mpr hb0
    rw [qDiv, Rat.divInt_eq_div]
    push_cast
    rw [div_eq_div_iff (mul_ne_zero ha hbn) hb0]
    rw [← rat_mul_den a, ← rat_mul_den b]
    ring

theorem joinNl_cons (l : JStr) (ls : List JStr) (h : ls ≠ []) :
    joinNl (l :: ls) = l ++ '\n' :: joinNl ls := by
  cases ls with
  | nil => exact absurd rfl h
  | cons a as => rfl

theorem takeBudget_snd_ge (mc : Nat) (ls : List JStr) (cur : Nat) :
    cur ≤ (takeBudget mc ls cur).2 := by
  induction ls generalizing cur with
  | nil => simp [takeBudget]
  | cons l ls ih =>
    simp only [takeBudget]
    split
    · exact Nat.le_refl _
    · exact Nat.le_trans (by omega) (ih (cur + l.length + 1))

theorem takeBudget_snd_le (mc : Nat) (ls : List JStr) (cur : Nat)
    (h : cur ≤ mc + 1) : (takeBudget mc ls cur).2 ≤ mc + 1 := by
  induction ls generalizing cur with
  | nil => simpa [takeBudget] using h
  | cons l ls ih =>
    simp only [takeBudget]
    split
    · exact h
    · next hgt => exact ih (cur + l.length + 1) (by omega)

theorem takeBudget_join_len (mc : Nat) (ls : List JStr) (cur : Nat) :
    (takeBudget mc ls cur).1 = [] ∨
      (joinNl (takeBudget mc ls cur).1).length + cur + 1 ≤ (takeBudget mc ls cur).2 := by
  induction ls generalizing cur with
  | nil => exact Or.inl rfl
  | cons l ls ih =>
    simp only [takeBudget]
    split
    · exact Or.inl rfl
    · right
      by_cases hr : (takeBudget mc ls (cur + l.length + 1)).1 = []
      · rw [hr]
        have := takeBudget_snd_ge mc ls (cur + l.length + 1)
        simpa [joinNl] using by omega
      · rw [joinNl_cons l _ hr]
        rcases ih (cur + l.length + 1) with h | h
        · exact absurd h hr
        · simp only [List.length_append, List.length_cons]
          omega

theorem truncateContext_code_length (config : OptimizationConfig)
    (context : CodeContext) :
    (truncateContext config context).extractedCode.length ≤
      config.maxTokensPerEntry * config.tokenEstimationRatio := by
  simp only [truncateContext]
  split
  · next h => exact h
  · next h =>
    rcases takeBudget_join_len (config.maxTokensPerEntry * config.tokenEstimationRatio)
        (splitNl context.extractedCode) 0 with h1 | h1
    · simp [h1, joinNl]
    · have h2 := takeBudget_snd_le (config.maxTokensPerEntry * config.tokenEstimationRatio)
        (splitNl context.extractedCode) 0 (by omega)
      simp only
      omega

theorem truncateContext_eq_of_le (config : OptimizationConfig)
    (context : CodeContext)
    (h : context.extractedCode.length ≤
      config.maxTokensPerEntry * config.tokenEstimationRatio) :
    truncateContext config context = context := by
  simp only [truncateContext]
  exact if_pos h

theorem truncateContext_relevanceScore (config : OptimizationConfig)
    (context : CodeContext) :
    (truncateContext config context).relevanceScore = context.relevanceScore := by
  simp only [truncateContext]
  split <;> rfl

/-! ## Claim theorems -/

/-- C8. Token truncation is idempotent: applying `truncateContext` a second
time with the same budget to an already-truncated context returns it
unchanged — the first pass leaves `extractedCode` within the character budget
`maxTokensPerEntry * tokenEstimationRatio`, so the second pass takes the
early-return branch. -/
theorem truncateContext_idempotent (config : OptimizationConfig)
    (context : CodeContext) :
    truncateContext config (truncateContext config context) =
      truncateContext config context :=
  truncateContext_eq_of_le config _ (truncateContext_code_length config context)

/-- C7. `computeDiff` on old text `"a\nb\nc\nd"` and new text
`"a\nb2\nc2\nd"` returns exactly one change: a `modified` block with
`oldStart = 2`, `oldEnd = 3`, `newStart = 2`, `newEnd = 3` and content
`"b2\nc2"`. -/
theorem computeDiff_concrete_modified_block :
    computeDiff (js "a\nb\nc\nd") (js "a\nb2\nc2\nd") =
      [{ type := .modified, oldStart := some 2, oldEnd := some 3,
         newStart := some 2, newEnd := some 3, content := js "b2\nc2" }] := by
  decide

/-- C1. The round-trip `applyDiff(oldText, computeDiff(oldText, newText)) ==
newText` fails on the concrete input `oldText = "b"`, `newText = "a\nb"`:
`computeDiff` yields one pure-insertion hunk (no `oldStart`), and `applyDiff`
both sorts such hunks last and copies the original through line
`max(1, oldStart - 1) ≥ 1` before splicing, so the result is `"b\na"` instead
of `"a\nb"`. -/
theorem applyDiff_computeDiff_roundtrip_fails :
    applyDiff (js "b") (computeDiff (js "b") (js "a\nb")) = js "b\na" ∧
      js "b\na" ≠ js "a\nb" := by
  decide

theorem dedupKeepFirst_mem (l : List JStr) (seen : List JStr) (a : JStr) :
    a ∈ dedupKeepFirst seen l ↔ a ∈ l ∧ a ∉ seen := by
  induction l generalizing seen with
  | nil => simp [dedupKeepFirst]
  | cons x xs ih =>
    simp only [dedupKeepFirst]
    split
    · next hx =>
      rw [ih]
      simp only [List.mem_cons]
      constructor
      · rintro ⟨h1, h2⟩
        exact ⟨Or.inr h1, h2⟩
      · rintro ⟨h1 | h1, h2⟩
        · exact absurd (h1 ▸ hx) h2
        · exact ⟨h1, h2⟩
    · next hx =>
      simp only [List.mem_cons, ih]
      constructor
      · rintro (rfl | ⟨h1, h2⟩)
        · exact ⟨Or.inl rfl, hx⟩
        · push_neg at h2
          exact ⟨Or.inr h1, h2.2⟩
      · rintro ⟨rfl | h1, h2⟩
        · exact Or.inl rfl
        · by_cases hax : a = x
          · exact Or.inl hax
          · exact Or.inr ⟨h1, by simp [List.mem_cons, hax, h2]⟩

theorem dedupKeepFirst_nodup (l : List JStr) (seen : List JStr) :
    (dedupKeepFirst seen l).Nodup := by
  induction l generalizing seen with
  | nil => simp [dedupKeepFirst]
  | cons x xs ih =>
    simp only [dedupKeepFirst]
    split
    · exact ih seen
    · rw [List.nodup_cons]
      refine ⟨fun hmem => ?_, ih (x :: seen)⟩
      rw [dedupKeepFirst_mem] at hmem
      exact hmem.2 (List.mem_cons_self x seen)

theorem symbolChangeFor_symbol (snapshot currentSymbols : SymMap) (name : JStr)
    (ch : SymbolChange)
    (h : symbolChangeFor snapshot currentSymbols name = some ch) :
    ch.symbol = name := by
  simp only [symbolChangeFor] at h
  split_ifs at h
  all_goals (injection h with h; subst h; rfl)

theorem symGet_eq_none (m : SymMap) (name : JStr)
    (h : name ∉ m.map (fun e => e.1)) : symGet m name = none := by
  have hf : m.find? (fun e => e.1 == name) = none := by
    rw [List.find?_eq_none]
    intro e he
    simp only [Bool.not_eq_true, beq_eq_false_iff_ne]
    intro heq
    exact h (List.mem_map.mpr ⟨e, he, heq⟩)
  simp [symGet, hf]

theorem filterMap_symbolChangeFor_filter (snapshot currentSymbols : SymMap)
    (name : JStr) (l : List JStr) (hnd : l.Nodup) :
    (l.filterMap (symbolChangeFor snapshot currentSymbols)).filter
        (fun c => c.symbol == name) =
      if name ∈ l then (symbolChangeFor snapshot currentSymbols name).toList
      else [] := by
  induction l with
  | nil => simp
  | cons x xs ih =>
    rw [List.nodup_cons] at hnd
    obtain ⟨hx, hnd'⟩ := hnd
    rw [List.filterMap_cons]
    cases hfx : symbolChangeFor snapshot currentSymbols x with
    | none =>
      rw [ih hnd']
      by_cases hnx : name = x
      · subst hnx
        simp [hx, hfx]
      · simp [List.mem_cons, hnx]
    | some ch =>
      have hsym : ch.symbol = x := symbolChangeFor_symbol _ _ _ _ hfx
      rw [List.filter_cons]
      by_cases hnx : name = x
      · subst hnx
        rw [if_pos (by simp [hsym]), ih hnd']
        simp [hx, hfx]
      · rw [if_neg (by simp [hsym]; exact fun hh => hnx hh.symm), ih hnd']
        simp [List.mem_cons, hnx]

/-- C2 counterexample. The symbol `"foo"` is present in both the snapshot
map (with empty text) and the current map (with text `"x"`), and the two
texts differ, so the claim requires exactly one `modified` record; the code
instead emits an `added` record with no `oldCode`, because the JavaScript
truthiness test `!oldContent` treats the empty snapshot text as absent. -/
theorem generateSymbolDiff_empty_old_not_modified :
    generateSymbolDiff [(js "foo", [])] [(js "foo", js "x")] =
      [{ type := .added, symbol := js "foo", code := js "x", lineNumber := 0,
         oldCode := none }] := by
  decide

/-- C2 (amended). For every snapshot map, current map and symbol name, the
changes emitted by `generateSymbolDiff` contain exactly the records given by
the per-name rule over the union of the key sets, with "present" meaning
"present with non-empty text" (JS truthiness): old absent-or-empty and new
non-empty → one `added` record with the new code; old non-empty and new
absent-or-empty → one `removed` record with empty code and `oldCode` the
snapshot text; both non-empty and different → one `modified` record; anything
else (including both texts empty or equal) → no record. -/
theorem generateSymbolDiff_per_name_rule (snapshot currentSymbols : SymMap)
    (name : JStr) :
    (generateSymbolDiff snapshot currentSymbols).filter
        (fun c => c.symbol == name) =
      (if !strTruthy (symGet snapshot name) &&
          strTruthy (symGet currentSymbols name) then
        [{ type := .added, symbol := name,
           code := (symGet currentSymbols name).getD [], lineNumber := 0 }]
      else if strTruthy (symGet snapshot name) &&
          !strTruthy (symGet currentSymbols name) then
        [{ type := .removed, symbol := name, code := [], lineNumber := 0,
           oldCode := symGet snapshot name }]
      else if strTruthy (symGet snapshot name) &&
          strTruthy (symGet currentSymbols name) &&
          symGet snapshot name != symGet currentSymbols name then
        [{ type := .modified, symbol := name,
           code := (symGet currentSymbols name).getD [], lineNumber := 0,
           oldCode := symGet snapshot name }]
      else []) := by
  have hmain : (generateSymbolDiff snapshot currentSymbols).filter
      (fun c => c.symbol == name) =
      (symbolChangeFor snapshot currentSymbols name).toList := by
    simp only [generateSymbolDiff]
    rw [filterMap_symbolChangeFor_filter _ _ _ _ (dedupKeepFirst_nodup _ _)]
    by_cases hmem : name ∈ dedupKeepFirst []
        (snapshot.map (fun e => e.1) ++ currentSymbols.map (fun e => e.1))
    · rw [if_pos hmem]
    · rw [if_neg hmem]
      rw [dedupKeepFirst_mem] at hmem
      simp only [List.mem_append, List.not_mem_nil, not_false_iff, and_true,
        not_or] at hmem
      rw [symbolChangeFor, symGet_eq_none _ _ hmem.1, symGet_eq_none _ _ hmem.2]
      rfl
  rw [hmain]
  simp only [symbolChangeFor]
  split_ifs <;> rfl

/-- C9. Cache keys are deterministic and insensitive to the order of the
requested symbols: for every file path `f`,
`generateCacheKey f ["b","a"] true = generateCacheKey f ["a","b"] true`
(the symbols are sorted before joining), and both differ from
`generateCacheKey f ["a","b"] false` (the imports flag lands in the key). -/
theorem generateCacheKey_symbol_order_insensitive (f : JStr) :
    generateCacheKey f (some [js "b", js "a"]) true =
        generateCacheKey f (some [js "a", js "b"]) true ∧
      generateCacheKey f (some [js "b", js "a"]) true ≠
        generateCacheKey f (some [js "a", js "b"]) false := by
  have hsort : sortStrs [js "b", js "a"] = sortStrs [js "a", js "b"] := by decide
  constructor
  · simp only [generateCacheKey]
    rw [hsort]
  · intro h
    simp only [generateCacheKey] at h
    exact absurd (List.append_cancel_left h) (by decide)

/-- C3. A write whose context scores below the admission threshold is
silently dropped: `set` returns the state unchanged (truncation does not
change the relevance score, and the relevance test precedes every mutation),
and if the cache did not already hold the key, a subsequent `get` of that key
misses. -/
theorem cmSet_lowRelevance_dropped (config : OptimizationConfig) (mlog : ℚ → ℚ)
    (key : JStr) (context : CodeContext) (s : CMState)
    (h : context.relevanceScore < config.relevanceThreshold) :
    cmSet config mlog key context s = s ∧
      (s.entries.find? (fun e => e.1 == key) = none →
        (cmGet key (cmSet config mlog key context s)).1 = none) := by
  have hrel : (if context.tokenCount > config.maxTokensPerEntry then
      truncateContext config context else context).relevanceScore <
      config.relevanceThreshold := by
    split
    · rw [truncateContext_relevanceScore]; exact h
    · exact h
  have hset : cmSet config mlog key context s = s := by
    simp only [cmSet]
    rw [if_pos hrel]
  refine ⟨hset, fun hf => ?_⟩
  rw [hset]
  simp [cmGet, lruGet, hf]

/-- Witness for C3 at concrete inputs: a zero-relevance context is dropped by
a default-configured cache (threshold 1/2) and remains unretrievable. -/
theorem cmSet_lowRelevance_dropped_witness :
    lowRelevanceContext.relevanceScore < defaultConfig.relevanceThreshold ∧
      cmSet defaultConfig zeroLog (js "k") lowRelevanceContext initialState =
        initialState ∧
      (cmGet (js "k")
        (cmSet defaultConfig zeroLog (js "k") lowRelevanceContext initialState)).1 =
        none := by
  have h := cmSet_lowRelevance_dropped defaultConfig zeroLog (js "k")
    lowRelevanceContext initialState (by decide)
  exact ⟨by decide, h.1, h.2 (by decide)⟩

/-- C6 counterexample. After the request trace miss(`"x"`), miss(`"x"`),
set(`"k"`), hit(`"k"`), the number of get requests served before the hit is
2, so the claim's rule predicts `hitRate = (0 × 2 + 1) / (2 + 1) = 1/3`; the
code's `totalRequests` is instead `hitRate + missRate = 0 + 1 = 1`, giving
`hitRate = 1/2`. -/
theorem recordHit_totalRequests_not_request_count :
    rateTraceState.stats.hitRate = mkRat 1 2 ∧
      ((0 : ℚ) * 2 + 1) / (2 + 1) = mkRat 1 3 ∧ (mkRat 1 2 : ℚ) ≠ mkRat 1 3 := by
  refine ⟨by decide, ?_, by decide⟩
  rw [Rat.mkRat_eq_div]
  push_cast
  norm_num

/-- C6 (amended). On every `get` exactly one of `hitRate` (on a hit) or
`missRate` (on a miss) is updated by the incremental rule
`newRate = (oldRate × t + 1) / (t + 1)` where `t = hitRate + missRate` is the
current sum of the two running rates (the code's `totalRequests` variable) —
not the number of get requests served so far — while the other rate keeps its
value; the rates are never recomputed from raw counters. -/
theorem cmGet_rate_update_rule (s : CMState) (key : JStr) :
    ((s.entries.find? (fun e => e.1 == key)).isSome = true →
      (cmGet key s).2.stats.hitRate =
          (s.stats.hitRate * (s.stats.hitRate + s.stats.missRate) + 1) /
            (s.stats.hitRate + s.stats.missRate + 1) ∧
        (cmGet key s).2.stats.missRate = s.stats.missRate) ∧
    (s.entries.find? (fun e => e.1 == key) = none →
      (cmGet key s).2.stats.missRate =
          (s.stats.missRate * (s.stats.hitRate + s.stats.missRate) + 1) /
            (s.stats.hitRate + s.stats.missRate + 1) ∧
        (cmGet key s).2.stats.hitRate = s.stats.hitRate) := by
  constructor
  · intro h
    obtain ⟨e, he⟩ := Option.isSome_iff_exists.mp h
    simp only [cmGet, lruGet, he]
    simp [recordHit, updateAccessStats, qAdd_eq, qMul_eq, qDiv_eq, add_assoc]
  · intro h
    simp only [cmGet, lruGet, h]
    simp [recordMiss, qAdd_eq, qMul_eq, qDiv_eq, add_assoc]

/-- Witness for C6's amended rule: a hit on the one stored key of
`oneEntryState` follows the update rule. -/
theorem cmGet_rate_update_rule_witness :
    (oneEntryState.entries.find? (fun e => e.1 == js "k")).isSome = true ∧
      ((cmGet (js "k") oneEntryState).2.stats.hitRate =
          (oneEntryState.stats.hitRate *
            (oneEntryState.stats.hitRate + oneEntryState.stats.missRate) + 1) /
            (oneEntryState.stats.hitRate + oneEntryState.stats.missRate + 1) ∧
        (cmGet (js "k") oneEntryState).2.stats.missRate =
          oneEntryState.stats.missRate) :=
  ⟨by decide, (cmGet_rate_update_rule oneEntryState (js "k")).1 (by decide)⟩

theorem lruEvictGo_cons (maxSize fuel : Nat) (k : JStr) (v : CodeContext)
    (rest : EntryList) (h : calculateEntrySize v ≤ maxSize) :
    ∃ rest', (lruEvictGo maxSize fuel ((k, v) :: rest)).1 = (k, v) :: rest' := by
  induction fuel generalizing rest with
  | zero => exact ⟨rest, rfl⟩
  | succ fuel ih =>
    simp only [lruEvictGo]
    split
    · exact ⟨rest, rfl⟩
    · next hcond =>
      cases rest with
      | nil =>
        exact absurd ⟨by norm_num [lruMaxEntries], by simpa [entriesSize] using h⟩
          hcond
      | cons e es =>
        rw [List.dropLast_cons₂]
        exact ih ((e :: es).dropLast)

/-- C4 counterexample. Storing `overBudgetContext` (`tokenCount` 5, above
`tinyConfig`'s 1-token budget) truncates it, but the stored context's
`tokenCount` is `Math.ceil(5/4) = 2`, still above the per-entry ceiling 1:
the greedy loop admits a line that lands exactly on the character budget and
then counts one more for its newline. -/
theorem cmSet_stored_tokenCount_above_ceiling :
    ((cmSet tinyConfig zeroLog (js "k") overBudgetContext initialState).entries.find?
        (fun e => e.1 == js "k")).map (fun e => e.2.tokenCount) = some 2 ∧
      tinyConfig.maxTokensPerEntry < 2 := by
  decide

/-- C4 (amended). A context whose `tokenCount` exceeds `maxTokensPerEntry` is
truncated line-by-line before admission (the context actually stored is
`truncateContext` of it, provided it passes the relevance gate and fits the
cache), and the truncation bounds the stored `extractedCode` by
`maxTokensPerEntry × tokenEstimationRatio` characters; the stored `tokenCount`
field itself, however, may exceed the ceiling (by one after a truncation that
lands on the budget, or arbitrarily when the code already fit in characters),
as the counterexample shows. -/
theorem cmSet_truncates_before_admission (config : OptimizationConfig)
    (mlog : ℚ → ℚ) (key : JStr) (context : CodeContext) (s : CMState)
    (h1 : context.tokenCount > config.maxTokensPerEntry)
    (h2 : ¬ (truncateContext config context).relevanceScore <
      config.relevanceThreshold)
    (h3 : calculateEntrySize (truncateContext config context) ≤
      config.maxCacheSize) :
    ((cmSet config mlog key context s).entries.find? (fun e => e.1 == key)) =
        some (key, truncateContext config context) ∧
      (truncateContext config context).extractedCode.length ≤
        config.maxTokensPerEntry * config.tokenEstimationRatio := by
  refine ⟨?_, truncateContext_code_length config context⟩
  simp only [cmSet]
  rw [if_pos h1, if_neg h2]
  simp only [updateStats, updateAccessStats, lruSet]
  rw [if_neg (Nat.not_lt.mpr h3)]
  set rem := List.eraseP (fun e => e.1 == key)
    (ensureCapacity config mlog (calculateEntrySize (truncateContext config context)) s).entries
  obtain ⟨rest', hr⟩ := lruEvictGo_cons config.maxCacheSize
    ((key, truncateContext config context) :: rem).length key
    (truncateContext config context) rem h3
  simp only [hr, List.find?_cons, beq_self_eq_true]

/-- Witness for C4's amended statement at concrete inputs. -/
theorem cmSet_truncates_before_admission_witness :
    overBudgetContext.tokenCount > tinyConfig.maxTokensPerEntry ∧
      ((cmSet tinyConfig zeroLog (js "k") overBudgetContext initialState).entries.find?
        (fun e => e.1 == js "k")) =
        some (js "k", truncateContext tinyConfig overBudgetContext) := by
  have h := cmSet_truncates_before_admission tinyConfig zeroLog (js "k")
    overBudgetContext initialState (by decide) (by decide) (by decide)
  exact ⟨by decide, h.1⟩

theorem natMapGet_set_self (m : NatMap) (k : JStr) (v : Nat) :
    natMapGet (natMapSet m k v) k = some v := by
  induction m with
  | nil => simp [natMapGet, natMapSet]
  | cons e es ih =>
    simp only [natMapSet]
    split
    · simp [natMapGet, List.find?_cons]
    · next he =>
      simp only [natMapGet, List.find?_cons] at ih ⊢
      rw [Bool.not_eq_true] at he
      rw [he]
      exact ih

theorem natMapGet_set_other (m : NatMap) (k k' : JStr) (v : Nat)
    (h : k' ≠ k) : natMapGet (natMapSet m k' v) k = natMapGet m k := by
  have hbeq : (k' == k) = false := beq_eq_false_iff_ne.mpr h
  induction m with
  | nil => simp [natMapGet, natMapSet, List.find?_cons, hbeq]
  | cons e es ih =>
    simp only [natMapSet]
    split
    · next he =>
      rw [beq_iff_eq] at he
      simp only [natMapGet, List.find?_cons, hbeq]
      rw [← he] at hbeq
      rw [hbeq]
    · simp only [natMapGet, List.find?_cons] at ih ⊢
      cases hek : (e.1 == k) with
      | true => rfl
      | false => exact ih

theorem updateAccessStats_self (key : JStr) (s : CMState) :
    natMapGet (updateAccessStats key s).accessCounts key =
        some ((natMapGet s.accessCounts key).getD 0 + 1) ∧
      natMapGet (updateAccessStats key s).lastAccessed key = some s.now := by
  simp only [updateAccessStats]
  exact ⟨natMapGet_set_self _ _ _, natMapGet_set_self _ _ _⟩

theorem updateAccessStats_other (key k : JStr) (s : CMState) (h : key ≠ k) :
    natMapGet (updateAccessStats key s).accessCounts k =
        natMapGet s.accessCounts k ∧
      natMapGet (updateAccessStats key s).lastAccessed k =
        natMapGet s.lastAccessed k := by
  simp only [updateAccessStats]
  exact ⟨natMapGet_set_other _ _ _ _ h, natMapGet_set_other _ _ _ _ h⟩

/-- The state component of `getByFilePath` is the fold that refreshes the
access stats of every matching entry. -/
theorem getByFilePath_state (config : OptimizationConfig) (filePath : JStr)
    (s : CMState) :
    (getByFilePath config filePath s).2 =
      s.entries.foldl
        (fun st e => if e.2.filePath == filePath then updateAccessStats e.1 st
          else st) s := by
  simp only [getByFilePath]
  suffices h : ∀ (l : EntryList) (acc : List CodeContext × CMState),
      (l.foldl (fun acc e => if e.2.filePath == filePath
          then (acc.1 ++ [e.2], updateAccessStats e.1 acc.2) else acc) acc).2 =
        l.foldl (fun st e => if e.2.filePath == filePath
          then updateAccessStats e.1 st else st) acc.2 from
    h s.entries ([], s)
  intro l
  induction l with
  | nil => intro acc; rfl
  | cons e es ih =>
    intro acc
    simp only [List.foldl_cons]
    rw [ih]
    congr 1
    by_cases hc : (e.2.filePath == filePath) = true
    · simp [hc]
    · simp [hc]

theorem accessStatsFold_not_matching (filePath key : JStr) (entries : EntryList)
    (st : CMState)
    (h : ∀ c, (key, c) ∈ entries → (c.filePath == filePath) = false) :
    natMapGet (entries.foldl (fun st e => if e.2.filePath == filePath
          then updateAccessStats e.1 st else st) st).accessCounts key =
        natMapGet st.accessCounts key ∧
      natMapGet (entries.foldl (fun st e => if e.2.filePath == filePath
          then updateAccessStats e.1 st else st) st).lastAccessed key =
        natMapGet st.lastAccessed key ∧
      (entries.foldl (fun st e => if e.2.filePath == filePath
          then updateAccessStats e.1 st else st) st).now = st.now := by
  induction entries generalizing st with
  | nil => exact ⟨rfl, rfl, rfl⟩
  | cons e es ih =>
    simp only [List.foldl_cons]
    by_cases hk : e.1 = key
    · have hfp : (e.2.filePath == filePath) = false := by
        apply h
        rw [← hk]
        exact List.mem_cons_self e es
      rw [hfp]
      simp only [Bool.false_eq_true, if_false]
      exact ih st (fun c hc => h c (List.mem_cons_of_mem e hc))
    · by_cases hc : (e.2.filePath == filePath) = true
      · rw [hc]
        simp only [if_true]
        have hrest := ih (updateAccessStats e.1 st)
          (fun c hc => h c (List.mem_cons_of_mem e hc))
        have hother := updateAccessStats_other e.1 key st hk
        refine ⟨hrest.1.trans hother.1, hrest.2.1.trans hother.2, ?_⟩
        rw [hrest.2.2]
        rfl
      · rw [Bool.not_eq_true] at hc
        rw [hc]
        simp only [Bool.false_eq_true, if_false]
        exact ih st (fun c hmem => h c (List.mem_cons_of_mem e hmem))

theorem accessStatsFold_matching (filePath key : JStr) (ctx : CodeContext)
    (entries : EntryList) (st : CMState)
    (hnd : (entries.map (fun e => e.1)).Nodup)
    (hmem : (key, ctx) ∈ entries)
    (hp : (ctx.filePath == filePath) = true) :
    natMapGet (entries.foldl (fun st e => if e.2.filePath == filePath
          then updateAccessStats e.1 st else st) st).accessCounts key =
        some ((natMapGet st.accessCounts key).getD 0 + 1) ∧
      natMapGet (entries.foldl (fun st e => if e.2.filePath == filePath
          then updateAccessStats e.1 st else st) st).lastAccessed key =
        some st.now := by
  induction entries generalizing st with
  | nil => exact absurd hmem (List.not_mem_nil _)
  | cons e es ih =>
    rw [List.map_cons, List.nodup_cons] at hnd
    obtain ⟨hx, hnd'⟩ := hnd
    simp only [List.foldl_cons]
    rcases List.mem_cons.mp hmem with heq | hmem'
    · have hkey : e.1 = key := by rw [← heq]
      have hctx : e.2 = ctx := by rw [← heq]
      rw [hctx, hp, hkey]
      simp only [if_true]
      have hnokey : ∀ c, (key, c) ∈ es → (c.filePath == filePath) = false := by
        intro c hc
        exact absurd (hkey ▸ List.mem_map.mpr ⟨(key, c), hc, rfl⟩) hx
      have hrest := accessStatsFold_not_matching filePath key es
        (updateAccessStats key st) hnokey
      have hself := updateAccessStats_self key st
      refine ⟨hrest.1.trans hself.1, hrest.2.1.trans ?_⟩
      rw [hself.2]
    · have hek : e.1 ≠ key := by
        intro hk
        exact absurd (hk ▸ List.mem_map.mpr ⟨(key, ctx), hmem', rfl⟩) hx
      have hother := updateAccessStats_other e.1 key st hek
      by_cases hc : (e.2.filePath == filePath) = true
      · rw [hc]
        simp only [if_true]
        have hih := ih (updateAccessStats e.1 st) hnd' hmem'
        constructor
        · rw [hih.1, hother.1]
        · rw [hih.2]
          rfl
      · rw [Bool.not_eq_true] at hc
        rw [hc]
        simp only [Bool.false_eq_true, if_false]
        exact ih st hnd' hmem'

/-- C10. `getByFilePath(p)` refreshes access statistics exactly as a `get`
hit would — through the same `updateAccessStats` — for every stored entry
whose context's `filePath` equals `p`: its access count is incremented by one
and its last-access time is set to the current clock; entries whose contexts
have other file paths keep both statistics unchanged.  (Stated for states
whose stored keys are distinct, which every state built by the cache is.) -/
theorem getByFilePath_access_stats_frame (config : OptimizationConfig)
    (p : JStr) (s : CMState) (key : JStr)
    (hnd : (s.entries.map (fun e => e.1)).Nodup) :
    (∀ ctx, (key, ctx) ∈ s.entries → (ctx.filePath == p) = true →
      natMapGet (getByFilePath config p s).2.accessCounts key =
          some ((natMapGet s.accessCounts key).getD 0 + 1) ∧
        natMapGet (getByFilePath config p s).2.lastAccessed key = some s.now) ∧
    ((∀ ctx, (key, ctx) ∈ s.entries → (ctx.filePath == p) = false) →
      natMapGet (getByFilePath config p s).2.accessCounts key =
          natMapGet s.accessCounts key ∧
        natMapGet (getByFilePath config p s).2.lastAccessed key =
          natMapGet s.lastAccessed key) := by
  rw [getByFilePath_state]
  constructor
  · intro ctx hmem hp
    exact accessStatsFold_matching p key ctx s.entries s hnd hmem hp
  · intro h
    have hfold := accessStatsFold_not_matching p key s.entries s h
    exact ⟨hfold.1, hfold.2.1⟩

/-- Witness for C10 at a concrete two-entry state: reading file path `"f"`
bumps the matching entry's access count from 3 to 4 and stamps its
last-access time with the clock (7), by a direct application of the frame
theorem. -/
theorem getByFilePath_access_stats_frame_witness :
    (twoFileState.entries.map (fun e => e.1)).Nodup ∧
      natMapGet (getByFilePath defaultConfig (js "f") twoFileState).2.accessCounts
        (js "k1") = some 4 ∧
      natMapGet (getByFilePath defaultConfig (js "f") twoFileState).2.lastAccessed
        (js "k1") = some 7 := by
  have h := (getByFilePath_access_stats_frame defaultConfig (js "f")
    twoFileState (js "k1") (by decide)).1 sampleContext (by decide) (by decide)
  exact ⟨by decide, h.1.trans (by decide), h.2.trans (by decide)⟩

theorem entriesSize_eraseP (p : JStr × CodeContext → Bool) (l : EntryList) :
    entriesSize (l.eraseP p) ≤ entriesSize l :=
  List.Sublist.sum_le_sum
    ((List.eraseP_sublist l).map (fun e => calculateEntrySize e.2))
    (fun a _ => Nat.zero_le a)

theorem freeSpaceGo_entries_size (target : ℚ) (ranked : List RankedEntry)
    (freed : ℚ) (s : CMState) :
    entriesSize (freeSpaceGo target ranked freed s).entries ≤
      entriesSize s.entries := by
  induction ranked generalizing freed s with
  | nil => exact Nat.le_refl _
  | cons e rest ih =>
    simp only [freeSpaceGo]
    split
    · refine Nat.le_trans (ih _ _) ?_
      simp only [deleteEntry]
      exact entriesSize_eraseP _ _
    · exact Nat.le_refl _

theorem ensureCapacity_entries_size (config : OptimizationConfig)
    (mlog : ℚ → ℚ) (requiredSize : Nat) (s : CMState) :
    entriesSize (ensureCapacity config mlog requiredSize s).entries ≤
      entriesSize s.entries := by
  simp only [ensureCapacity]
  split
  · exact freeSpaceGo_entries_size _ _ _ _
  · exact Nat.le_refl _

theorem lruEvictGo_size_le (maxSize fuel : Nat) (es : EntryList)
    (h : es.length ≤ fuel) :
    entriesSize (lruEvictGo maxSize fuel es).1 ≤ maxSize := by
  induction fuel generalizing es with
  | zero =>
    rw [List.eq_nil_of_length_eq_zero (Nat.le_zero.mp h)]
    exact Nat.zero_le _
  | succ fuel ih =>
    simp only [lruEvictGo]
    split
    · next hok => exact hok.2
    · exact ih es.dropLast (by rw [List.length_dropLast]; omega)

theorem lruSet_size_le (maxSize : Nat) (key : JStr) (context : CodeContext)
    (es : EntryList) (h : entriesSize es ≤ maxSize) :
    entriesSize (lruSet maxSize key context es).1 ≤ maxSize := by
  simp only [lruSet]
  split
  · exact Nat.le_trans (entriesSize_eraseP _ _) h
  · exact lruEvictGo_size_le _ _ _ (Nat.le_refl _)

theorem cmSet_size_invariant (config : OptimizationConfig) (mlog : ℚ → ℚ)
    (key : JStr) (context : CodeContext) (s : CMState)
    (h : s.stats.totalSize ≤ config.maxCacheSize ∧
      entriesSize s.entries ≤ config.maxCacheSize) :
    (cmSet config mlog key context s).stats.totalSize ≤ config.maxCacheSize ∧
      entriesSize (cmSet config mlog key context s).entries ≤
        config.maxCacheSize := by
  have hstep : ∀ ctx' : CodeContext,
      entriesSize (lruSet config.maxCacheSize key ctx'
        (ensureCapacity config mlog (calculateEntrySize ctx') s).entries).1 ≤
        config.maxCacheSize :=
    fun ctx' => lruSet_size_le _ _ _ _
      (Nat.le_trans (ensureCapacity_entries_size _ _ _ _) h.2)
  simp only [cmSet, updateStats, updateAccessStats]
  split
  all_goals split
  · exact h
  · exact ⟨hstep _, hstep _⟩
  · exact h
  · exact ⟨hstep _, hstep _⟩

/-- C5. After any finite sequence of `set` calls on a freshly constructed
cache, `stats.totalSize ≤ maxCacheSize`: the underlying size-aware LRU store
(constructed with `maxSize = maxCacheSize`) evicts from the LRU end until the
calculated size fits, and `updateStats` copies that calculated size into the
stats, so the reported size never exceeds the capacity at all — the 10%
buffer freed by `ensureCapacity` only ever frees more. -/
theorem totalSize_le_maxCacheSize (config : OptimizationConfig) (mlog : ℚ → ℚ)
    (ops : List (JStr × CodeContext)) :
    (ops.foldl (fun s kc => cmSet config mlog kc.1 kc.2 s)
        initialState).stats.totalSize ≤ config.maxCacheSize := by
  have main : ∀ (l : List (JStr × CodeContext)) (s : CMState),
      s.stats.totalSize ≤ config.maxCacheSize ∧
        entriesSize s.entries ≤ config.maxCacheSize →
      (l.foldl (fun s kc => cmSet config mlog kc.1 kc.2 s) s).stats.totalSize ≤
          config.maxCacheSize ∧
        entriesSize (l.foldl (fun s kc => cmSet config mlog kc.1 kc.2 s)
          s).entries ≤ config.maxCacheSize := by
    intro l
    induction l with
    | nil => intro s h; exact h
    | cons kc l ih =>
      intro s h
      exact ih _ (cmSet_size_invariant config mlog kc.1 kc.2 s h)
  exact (main ops initialState ⟨Nat.zero_le _, Nat.zero_le _⟩).1

end Mcpsaver
